import Mathlib

/-!
Verification of the fillout template tokenizer and parser (src/template.rs).

The Rust code is shallowly embedded over `List Char`: the borrowed string
slices of the source become character lists, byte offsets become character
indices (all reference inputs are ASCII, where the two coincide), and the
mutable iterator state becomes explicit state passing on a `Tokenizer`
structure.  Rust operations that can panic (slice indexing, map indexing)
are modelled so that the panic case is visible: evaluation returns an
`Option`, and in-bounds facts about the scanner's slice indices are proved
separately.
-/

namespace Fillout

/-- Characters of the opening delimiter (two left braces). -/
def dblOpen : List Char := ['{', '{']

/-- Characters of the closing delimiter (two right braces). -/
def dblClose : List Char := ['}', '}']

/-- Predicate of Rust's closure in the Var step of Tokenizer::next:
the character is a left or right brace. -/
def isBrace (c : Char) : Bool := c == '{' || c == '}'

/-- Unicode White_Space property, as used by Rust's char::is_whitespace
(which str::trim calls on both ends). -/
def isWs (c : Char) : Bool :=
  let n := c.toNat
  (0x09 ≤ n && n ≤ 0x0D) || n == 0x20 || n == 0x85 || n == 0xA0 || n == 0x1680 ||
  (0x2000 ≤ n && n ≤ 0x200A) || n == 0x2028 || n == 0x2029 || n == 0x202F ||
  n == 0x205F || n == 0x3000

/-- Model of Rust's str::trim: strip leading and trailing whitespace. -/
def trim (l : List Char) : List Char :=
  ((l.dropWhile isWs).reverse.dropWhile isWs).reverse

/-- Model of Rust's str::find with a character predicate: index of the first
character satisfying the predicate. -/
def findChar (p : Char → Bool) : List Char → Option Nat
  | [] => none
  | c :: tl => if p c then some 0 else (findChar p tl).map (· + 1)

/-- Model of Rust's str::find with a string pattern: first index at which the
needle occurs as a contiguous sub-list. -/
def findSub (needle : List Char) : List Char → Option Nat
  | [] => if needle.isPrefixOf [] then some 0 else none
  | c :: tl =>
    if needle.isPrefixOf (c :: tl) then some 0
    else (findSub needle tl).map (· + 1)

/-- Token type of src/template.rs: a literal span or a placeholder name. -/
inductive Token where
  | Lit (s : List Char)
  | Var (s : List Char)
deriving DecidableEq

/-- Syntax error type of src/template.rs.  Note that in the source only
ExpectedDoubleRightBraces carries a position payload. -/
inductive Error where
  | ExpectedDoubleRightBraces (pos : Nat)
  | UnexpectedEndOfFile
deriving DecidableEq

/-- Positional payload of an error value: the offset it carries, if any. -/
def Error.position : Error → Option Nat
  | .ExpectedDoubleRightBraces pos => some pos
  | .UnexpectedEndOfFile => none

/-- Result of one scanner step, Rust's Result<Token, Error>. -/
inductive TResult where
  | Ok (t : Token)
  | Err (e : Error)
deriving DecidableEq

/-- Scanner state enum of src/template.rs. -/
inductive State where
  | Lit
  | Var
deriving DecidableEq

/-- Rank used as a termination measure component (Var steps may keep the
corpus length unchanged but always move to Lit). -/
def State.rank : State → Nat
  | .Lit => 0
  | .Var => 1

/-- The Tokenizer struct of src/template.rs: scanner state, the remaining
text, the search offset into the remaining text, and the number of
characters already consumed from the original text. -/
structure Tokenizer where
  state : State
  corpus : List Char
  offset : Nat
  start : Nat
deriving DecidableEq

/-- Tokenizer::new: start in Var state at offset 2 when the text begins with
the opening delimiter, otherwise in Lit state at offset 0. -/
def Tokenizer.new (corpus : List Char) : Tokenizer :=
  if dblOpen.isPrefixOf corpus then
    { state := .Var, corpus := corpus, offset := 2, start := 0 }
  else
    { state := .Lit, corpus := corpus, offset := 0, start := 0 }

/-- The body of the match in Iterator::next for Tokenizer: given the current
state, produce (token-or-error, next state, consumed length, next offset). -/
def Tokenizer.step (t : Tokenizer) : TResult × State × Nat × Nat :=
  match t.state with
  | .Lit =>
    match findSub dblOpen (t.corpus.drop t.offset) with
    | some i =>
      (.Ok (.Lit (t.corpus.take (t.offset + i))), .Var, t.offset + i, 0)
    | none =>
      (.Ok (.Lit t.corpus), .Lit, t.corpus.length, 0)
  | .Var =>
    match findChar isBrace (t.corpus.drop 2) with
    | some i =>
      if dblClose.isPrefixOf (t.corpus.drop (2 + i)) then
        ((.Ok (.Var (trim ((t.corpus.drop 2).take i)))),
         if dblOpen.isPrefixOf (t.corpus.drop (4 + i)) then State.Var else State.Lit,
         4 + i, 0)
      else
        (.Err (.ExpectedDoubleRightBraces (t.start + 2 + i)), .Lit, 0, 2 + i)
    | none =>
      (.Err .UnexpectedEndOfFile, .Lit, 0, 2)

/-- Number of characters the next call of the scanner would consume. -/
def Tokenizer.consumedLen (t : Tokenizer) : Nat := t.step.2.2.1

/-- Iterator::next for Tokenizer: none when the remaining text is empty,
otherwise one step of the state machine. -/
def Tokenizer.next (t : Tokenizer) : Option (TResult × Tokenizer) :=
  if t.corpus.isEmpty then none
  else
    some (t.step.1,
      { state := t.step.2.1
        corpus := t.corpus.drop t.step.2.2.1
        offset := t.step.2.2.2
        start := t.start + t.step.2.2.1 })

/-- Drive the scanner for at most the given number of steps, collecting the
emitted token-or-error results in order. -/
def Tokenizer.run : Nat → Tokenizer → List TResult
  | 0, _ => []
  | fuel + 1, t =>
    match t.next with
    | none => []
    | some (r, t') => r :: Tokenizer.run fuel t'

/-- The scanner, started on this tokenizer, signals completion within the
given number of steps. -/
def Tokenizer.haltsWithin : Tokenizer → Nat → Bool
  | t, 0 => t.corpus.isEmpty
  | t, n + 1 =>
    match t.next with
    | none => true
    | some (_, t') => Tokenizer.haltsWithin t' n

/-- Concatenation of the character segments consumed by successive steps. -/
def Tokenizer.joinConsumed : Nat → Tokenizer → List Char
  | 0, _ => []
  | n + 1, t =>
    match t.next with
    | none => []
    | some (_, t') => t.corpus.take t.consumedLen ++ Tokenizer.joinConsumed n t'

/-- The complete token-or-error sequence for an input text (the number of
steps of a full drive is bounded by the input length, proved below). -/
def tokenize (s : List Char) : List TResult :=
  Tokenizer.run s.length (Tokenizer.new s)

/-- Overall parse result, Rust's Result<Vec<Token>, (Error, Vec<Error>)>:
either all tokens, or the first error with the list of later errors. -/
inductive PResult where
  | Ok (ts : List Token)
  | Err (first : Error) (rest : List Error)
deriving DecidableEq

/-- One accumulator transition of the parse fold in src/template.rs. -/
def parseStep (acc : PResult) (r : TResult) : PResult :=
  match acc, r with
  | .Ok ts, .Ok tok => .Ok (ts ++ [tok])
  | .Ok _, .Err e => .Err e []
  | .Err first rest, .Ok _ => .Err first rest
  | .Err first rest, .Err e => .Err first (rest ++ [e])

/-- The parse function of src/template.rs: drive the tokenizer to exhaustion,
folding the accumulator from Ok([]). -/
def parse (s : List Char) : PResult :=
  (tokenize s).foldl parseStep (.Ok [])

/-- Errors of a result sequence, in order. -/
def errList (l : List TResult) : List Error :=
  l.filterMap fun r =>
    match r with
    | .Err e => some e
    | .Ok _ => none

/-- Successful tokens of a result sequence, in order. -/
def okTokens (l : List TResult) : List Token :=
  l.filterMap fun r =>
    match r with
    | .Ok tok => some tok
    | .Err _ => none

/-- Token::eval of src/template.rs.  The context is a partial mapping from
names to values; Rust's ctx[n] indexing panics on a missing key, which the
model makes visible as a none result (there is no recoverable error value
in the return type). -/
def Token.eval (t : Token) (ctx : List Char → Option (List Char)) :
    Option (List Char) :=
  match t with
  | .Lit s => some s
  | .Var n => ctx n

/-- State-machine invariant of reachable tokenizers over original text s:
the remaining text is the untouched tail of s, in Var state the remaining
text begins with the opening delimiter, and in Lit state the search offset
is within the remaining text and, when zero, the remaining text does not
begin with the opening delimiter (so literal steps always make progress). -/
def Tokenizer.Good (t : Tokenizer) : Prop :=
  match t.state with
  | .Var => dblOpen.isPrefixOf t.corpus = true
  | .Lit =>
    t.offset ≤ t.corpus.length ∧
    (t.offset = 0 → t.corpus = [] ∨ dblOpen.isPrefixOf t.corpus = false)

/-- Full invariant relative to the original text. -/
def Tokenizer.Inv (s : List Char) (t : Tokenizer) : Prop :=
  t.corpus = s.drop t.start ∧ t.Good

/-- All character indices the pending step would use on the remaining text
are within bounds (in the byte-accurate source these indices are moreover
char boundaries: they point at ASCII brace characters or just past them). -/
def Tokenizer.stepInBounds (t : Tokenizer) : Prop :=
  match t.state with
  | .Lit => t.offset ≤ t.corpus.length
  | .Var =>
    2 ≤ t.corpus.length ∧
    ∀ i, findChar isBrace (t.corpus.drop 2) = some i →
      2 + i ≤ t.corpus.length ∧
      (dblClose.isPrefixOf (t.corpus.drop (2 + i)) = true →
        4 + i ≤ t.corpus.length)

/-- Step-count bound for a good tokenizer state: the remaining length, one
more when a literal scan resumes at a positive offset. -/
def Tokenizer.bound (t : Tokenizer) : Nat :=
  match t.state with
  | .Var => t.corpus.length
  | .Lit =>
    if t.offset = 0 then t.corpus.length else t.corpus.length - t.offset + 1

/-- Tokenizer states reachable from Tokenizer::new on a given input. -/
inductive Tokenizer.Reach (s : List Char) : Tokenizer → Prop
  | init : Tokenizer.Reach s (Tokenizer.new s)
  | step {t r t'} : Tokenizer.Reach s t → t.next = some (r, t') →
      Tokenizer.Reach s t'

/-- Reference input of scenario E: two left braces, lorem, two left braces,
ipsum, two right braces. -/
def exE : List Char :=
  ['{', '{', 'l', 'o', 'r', 'e', 'm', '{', '{', 'i', 'p', 's', 'u', 'm', '}', '}']

/-- Reference input of scenario F: the scenario E text followed by a second
unterminated placeholder before a well-formed one. -/
def exF : List Char :=
  ['{', '{', 'l', 'o', 'r', 'e', 'm', '{', '{', 'i', 'p', 's', 'u', 'm', '}', '}',
   '{', '{', 'd', 'o', 'l', 'o', 'r', '{', '{', 's', 'i', 't', '}', '}']

/-- Reference input of scenario G: an opening delimiter never followed by any
brace again. -/
def exG : List Char := ['{', '{', 'l', 'o', 'r', 'e', 'm']

/-- Small input with a malformed opener followed by a well-formed
placeholder, used to exhibit the recovery resume offset. -/
def ex4 : List Char := ['{', '{', 'a', '{', '{', 'b', '}', '}']

lemma findChar_lt {p : Char → Bool} :
    ∀ {l : List Char} {i : Nat}, findChar p l = some i → i < l.length := by
  intro l
  induction l with
  | nil => intro i h; simp [findChar] at h
  | cons c tl ih =>
    intro i h
    by_cases hp : p c = true
    · simp [findChar, hp] at h
      simp only [List.length_cons]
      omega
    · simp [findChar, hp, Option.map_eq_some'] at h
      obtain ⟨j, hj, hji⟩ := h
      have := ih hj
      simp only [List.length_cons]
      omega

lemma findChar_get {p : Char → Bool} :
    ∀ {l : List Char} {i : Nat}, findChar p l = some i →
      ∃ c, l[i]? = some c ∧ p c = true := by
  intro l
  induction l with
  | nil => intro i h; simp [findChar] at h
  | cons c tl ih =>
    intro i h
    by_cases hp : p c = true
    · simp [findChar, hp] at h
      exact ⟨c, by simp [← h], hp⟩
    · simp [findChar, hp, Option.map_eq_some'] at h
      obtain ⟨j, hj, hji⟩ := h
      obtain ⟨c', hc', hpc'⟩ := ih hj
      exact ⟨c', by simp [← hji, hc'], hpc'⟩

lemma findChar_none {p : Char → Bool} :
    ∀ {l : List Char}, findChar p l = none → ∀ c ∈ l, p c = false := by
  intro l
  induction l with
  | nil => intro _ c hc; simp at hc
  | cons a tl ih =>
    intro h c hc
    by_cases hp : p a = true
    · simp [findChar, hp] at h
    · simp [findChar, hp] at h
      rcases List.mem_cons.mp hc with rfl | hmem
      · simpa using hp
      · exact ih h c hmem

lemma findChar_app {p : Char → Bool} {b : Char} :
    ∀ {l1 : List Char} (l2 : List Char), (∀ c ∈ l1, p c = false) → p b = true →
      findChar p (l1 ++ b :: l2) = some l1.length := by
  intro l1
  induction l1 with
  | nil => intro l2 _ hb; simp [findChar, hb]
  | cons a tl ih =>
    intro l2 hall hb
    have ha : p a = false := hall a (by simp)
    have := ih l2 (fun c hc => hall c (by simp [hc])) hb
    simp [findChar, ha, this]

lemma findSub_drop {needle : List Char} :
    ∀ {l : List Char} {i : Nat}, findSub needle l = some i →
      needle.isPrefixOf (l.drop i) = true := by
  intro l
  induction l with
  | nil =>
    intro i h
    by_cases hp : needle.isPrefixOf ([] : List Char) = true
    · simp [findSub, hp] at h
      simpa [← h] using hp
    · simp [findSub, hp] at h
  | cons c tl ih =>
    intro i h
    by_cases hp : needle.isPrefixOf (c :: tl) = true
    · simp [findSub, hp] at h
      simpa [← h] using hp
    · simp [findSub, hp, Option.map_eq_some'] at h
      obtain ⟨j, hj, hji⟩ := h
      have := ih hj
      simpa [← hji] using this

lemma findSub_ne0 {needle : List Char} :
    ∀ {l : List Char} {i : Nat}, findSub needle l = some i →
      needle.isPrefixOf l = false → 1 ≤ i := by
  intro l
  cases l with
  | nil =>
    intro i h hf
    simp [findSub, hf] at h
  | cons c tl =>
    intro i h hf
    simp [findSub, hf, Option.map_eq_some'] at h
    obtain ⟨j, _, hji⟩ := h
    omega

lemma dblOpen_ex {l : List Char} :
    dblOpen.isPrefixOf l = true ↔ ∃ r, l = '{' :: '{' :: r := by
  cases l with
  | nil => simp [dblOpen, List.isPrefixOf]
  | cons a tl =>
    cases tl with
    | nil => simp [dblOpen, List.isPrefixOf]
    | cons b r =>
      simp only [dblOpen, List.isPrefixOf, Bool.and_eq_true, beq_iff_eq,
        List.cons.injEq]
      constructor
      · rintro ⟨rfl, rfl, -⟩
        exact ⟨r, rfl, rfl, rfl⟩
      · rintro ⟨r', rfl, rfl, rfl⟩
        exact ⟨rfl, rfl, trivial⟩

lemma dblClose_ex {l : List Char} :
    dblClose.isPrefixOf l = true ↔ ∃ r, l = '}' :: '}' :: r := by
  cases l with
  | nil => simp [dblClose, List.isPrefixOf]
  | cons a tl =>
    cases tl with
    | nil => simp [dblClose, List.isPrefixOf]
    | cons b r =>
      simp only [dblClose, List.isPrefixOf, Bool.and_eq_true, beq_iff_eq,
        List.cons.injEq]
      constructor
      · rintro ⟨rfl, rfl, -⟩
        exact ⟨r, rfl, rfl, rfl⟩
      · rintro ⟨r', rfl, rfl, rfl⟩
        exact ⟨rfl, rfl, trivial⟩

lemma findSub_noBrace :
    ∀ {l : List Char}, (∀ c ∈ l, isBrace c = false) →
      findSub dblOpen l = none := by
  intro l
  induction l with
  | nil => intro _; simp [findSub, dblOpen, List.isPrefixOf]
  | cons c tl ih =>
    intro hall
    have hc : isBrace c = false := hall c (by simp)
    have hcne : ¬ (c = '{') := by
      intro hcc
      subst hcc
      simp [isBrace] at hc
    have hp : dblOpen.isPrefixOf (c :: tl) = false := by
      cases hpp : dblOpen.isPrefixOf (c :: tl)
      · rfl
      · obtain ⟨r, hr⟩ := dblOpen_ex.mp hpp
        injection hr with h1 _
        exact absurd h1 hcne
    simp [findSub, hp, ih (fun d hd => hall d (by simp [hd]))]

lemma dropWhile_length_le (p : Char → Bool) :
    ∀ (l : List Char), (l.dropWhile p).length ≤ l.length := by
  intro l
  induction l with
  | nil => simp
  | cons a tl ih =>
    by_cases hp : p a = true
    · rw [List.dropWhile_cons, if_pos hp]
      simp only [List.length_cons]
      omega
    · rw [List.dropWhile_cons, if_neg (by simpa using hp)]

lemma dropWhile_app_all {p : Char → Bool} :
    ∀ {l1 : List Char} (l2 : List Char), (∀ c ∈ l1, p c = true) →
      (l1 ++ l2).dropWhile p = l2.dropWhile p := by
  intro l1
  induction l1 with
  | nil => intro l2 _; simp
  | cons a tl ih =>
    intro l2 hall
    have ha : p a = true := hall a (by simp)
    rw [List.cons_append, List.dropWhile_cons, if_pos ha]
    exact ih l2 (fun c hc => hall c (by simp [hc]))

lemma dropWhile_all_nil {p : Char → Bool} :
    ∀ {l : List Char}, (∀ c ∈ l, p c = true) → l.dropWhile p = [] := by
  intro l
  induction l with
  | nil => intro _; simp
  | cons a tl ih =>
    intro hall
    rw [List.dropWhile_cons, if_pos (hall a (by simp))]
    exact ih (fun c hc => hall c (by simp [hc]))

lemma head_not_of_dropWhile_self {p : Char → Bool} {c : Char} {tl : List Char}
    (h : (c :: tl).dropWhile p = c :: tl) : p c = false := by
  by_cases hc : p c = true
  · rw [List.dropWhile_cons, if_pos hc] at h
    have hlen := dropWhile_length_le p tl
    rw [h] at hlen
    simp only [List.length_cons] at hlen
    omega
  · simpa using hc

lemma trim_pad (ws1 ws2 name : List Char)
    (h1 : ∀ c ∈ ws1, isWs c = true) (h2 : ∀ c ∈ ws2, isWs c = true)
    (hl : name.dropWhile isWs = name)
    (hr : name.reverse.dropWhile isWs = name.reverse) :
    trim (ws1 ++ name ++ ws2) = name := by
  unfold trim
  rw [List.append_assoc, dropWhile_app_all (name ++ ws2) h1]
  cases name with
  | nil =>
    rw [List.nil_append, dropWhile_all_nil h2]
    simp
  | cons c tl =>
    have hc : isWs c = false := head_not_of_dropWhile_self hl
    rw [List.cons_append, List.dropWhile_cons, if_neg (by simp [hc])]
    rw [show (c :: (tl ++ ws2)) = (c :: tl) ++ ws2 by simp]
    rw [List.reverse_append]
    rw [dropWhile_app_all (c :: tl).reverse (fun d hd => h2 d (List.mem_reverse.mp hd))]
    rw [hr, List.reverse_reverse]

lemma isWs_not_brace {c : Char} (h : isWs c = true) : isBrace c = false := by
  by_cases hb : isBrace c = true
  · exfalso
    simp [isBrace, beq_iff_eq] at hb
    rcases hb with rfl | rfl
    · exact absurd h (by decide)
    · exact absurd h (by decide)
  · simpa using hb

lemma next_none_iff {t : Tokenizer} : t.next = none ↔ t.corpus = [] := by
  unfold Tokenizer.next
  by_cases h : t.corpus.isEmpty
  · simp [h, List.isEmpty_iff.mp h]
  · simp only [if_neg h]
    simp only [List.isEmpty_iff] at h
    simp [h]

lemma next_some {t : Tokenizer} (h : ¬ t.corpus = []) :
    t.next = some (t.step.1,
      { state := t.step.2.1
        corpus := t.corpus.drop t.step.2.2.1
        offset := t.step.2.2.2
        start := t.start + t.step.2.2.1 }) := by
  unfold Tokenizer.next
  rw [if_neg (by simpa [List.isEmpty_iff] using h)]

lemma next_parts {t : Tokenizer} {r : TResult} {t' : Tokenizer}
    (h : t.next = some (r, t')) :
    r = t.step.1 ∧ t'.state = t.step.2.1 ∧
    t'.corpus = t.corpus.drop t.consumedLen ∧
    t'.offset = t.step.2.2.2 ∧ t'.start = t.start + t.consumedLen ∧
    ¬ t.corpus = [] := by
  by_cases hc : t.corpus = []
  · rw [next_none_iff.mpr hc] at h
    exact absurd h (by simp)
  · rw [next_some hc] at h
    simp only [Option.some.injEq, Prod.mk.injEq] at h
    obtain ⟨hr, ht'⟩ := h
    subst ht'
    exact ⟨hr.symm, rfl, rfl, rfl, rfl, hc⟩

lemma good_new (s : List Char) : (Tokenizer.new s).Good := by
  unfold Tokenizer.new
  split
  · rename_i h
    simpa [Tokenizer.Good] using h
  · rename_i h
    refine ⟨Nat.zero_le _, fun _ => Or.inr ?_⟩
    rw [Bool.eq_false_iff]
    intro hcontra
    exact h (by simpa using hcontra)

lemma inv_new (s : List Char) : Tokenizer.Inv s (Tokenizer.new s) := by
  refine ⟨?_, good_new s⟩
  unfold Tokenizer.new
  split
  · simp
  · simp

lemma good_var {t : Tokenizer} (h1 : t.state = .Var)
    (h2 : dblOpen.isPrefixOf t.corpus = true) : t.Good := by
  obtain ⟨st, c, o, a⟩ := t
  cases st with
  | Lit => exact absurd h1 (by simp)
  | Var => exact h2

lemma good_lit {t : Tokenizer} (h1 : t.state = .Lit)
    (h2 : t.offset ≤ t.corpus.length)
    (h3 : t.offset = 0 → t.corpus = [] ∨ dblOpen.isPrefixOf t.corpus = false) :
    t.Good := by
  obtain ⟨st, c, o, a⟩ := t
  cases st with
  | Lit => exact ⟨h2, h3⟩
  | Var => exact absurd h1 (by simp)

lemma good_step {t t' : Tokenizer} {r : TResult}
    (hg : t.Good) (h : t.next = some (r, t')) : t'.Good := by
  obtain ⟨hr, hst, hcp, hoff, hstart, hne⟩ := next_parts h
  obtain ⟨st, c, o, a⟩ := t
  simp only [Tokenizer.consumedLen] at hcp
  cases st with
  | Lit =>
    obtain ⟨hle, h0⟩ := hg
    cases hf : findSub dblOpen (c.drop o) with
    | some i =>
      simp only [Tokenizer.step, hf] at hst hcp hoff
      have hpre := findSub_drop hf
      rw [List.drop_drop] at hpre
      refine good_var hst ?_
      rw [hcp]
      exact hpre
    | none =>
      simp only [Tokenizer.step, hf] at hst hcp hoff
      refine good_lit hst ?_ ?_
      · rw [hoff]
        exact Nat.zero_le _
      · intro _
        rw [hcp]
        exact Or.inl (List.drop_length c)
  | Var =>
    have hpre : dblOpen.isPrefixOf c = true := hg
    obtain ⟨rest, hrest⟩ := dblOpen_ex.mp hpre
    cases hb : findChar isBrace (c.drop 2) with
    | some i =>
      have hilt := findChar_lt hb
      simp only [List.length_drop] at hilt
      by_cases hcl : dblClose.isPrefixOf (c.drop (2 + i)) = true
      · simp only [Tokenizer.step, hb, if_pos hcl] at hst hcp hoff
        by_cases hop : dblOpen.isPrefixOf (c.drop (4 + i)) = true
        · rw [if_pos hop] at hst
          refine good_var hst ?_
          rw [hcp]
          exact hop
        · rw [if_neg hop] at hst
          refine good_lit hst ?_ ?_
          · rw [hoff]
            exact Nat.zero_le _
          · intro _
            rw [hcp]
            refine Or.inr ?_
            rw [Bool.eq_false_iff]
            intro hcontra
            exact hop (by simpa using hcontra)
      · simp only [Tokenizer.step, hb, if_neg hcl, List.drop_zero]
          at hst hcp hoff
        refine good_lit hst ?_ ?_
        · rw [hoff, hcp]
          omega
        · rw [hoff]
          intro hcontra
          omega
    | none =>
      simp only [Tokenizer.step, hb, List.drop_zero] at hst hcp hoff
      refine good_lit hst ?_ ?_
      · rw [hoff, hcp]
        subst hrest
        simp only [List.length_cons]
        omega
      · rw [hoff]
        intro hcontra
        omega

lemma inv_step {s : List Char} {t t' : Tokenizer} {r : TResult}
    (hi : Tokenizer.Inv s t) (h : t.next = some (r, t')) :
    Tokenizer.Inv s t' := by
  obtain ⟨hcor, hg⟩ := hi
  refine ⟨?_, good_step hg h⟩
  obtain ⟨hr, hst, hcp, hoff, hstart, hne⟩ := next_parts h
  rw [hcp, hstart, hcor, List.drop_drop]

lemma reach_inv {s : List Char} {t : Tokenizer}
    (h : Tokenizer.Reach s t) : Tokenizer.Inv s t := by
  induction h with
  | init => exact inv_new s
  | step _ hn ih => exact inv_step ih hn

lemma good_bounds {t : Tokenizer} (hg : t.Good) : t.stepInBounds := by
  obtain ⟨st, c, o, a⟩ := t
  cases st with
  | Lit => exact hg.1
  | Var =>
    have hpre : dblOpen.isPrefixOf c = true := hg
    obtain ⟨rest, hrest⟩ := dblOpen_ex.mp hpre
    subst hrest
    refine ⟨by simp, ?_⟩
    intro i hb
    have hilt := findChar_lt hb
    simp only [List.length_drop, List.length_cons] at hilt
    refine ⟨by simp only [List.length_cons]; omega, ?_⟩
    intro hcl
    obtain ⟨r2, hr2⟩ := dblClose_ex.mp hcl
    have : (('{' :: '{' :: rest).drop (2 + i)).length = r2.length + 2 := by
      rw [hr2]; simp
    simp only [List.length_drop, List.length_cons] at this
    simp only [List.length_cons]
    omega

lemma halts_empty {t : Tokenizer} (h : t.corpus = []) :
    ∀ n, t.haltsWithin n = true := by
  intro n
  cases n with
  | zero => simpa [Tokenizer.haltsWithin, List.isEmpty_iff] using h
  | succ n => simp [Tokenizer.haltsWithin, next_none_iff.mpr h]

lemma haltsWithin_mono :
    ∀ (n : Nat) (t : Tokenizer) (m : Nat), t.haltsWithin n = true → n ≤ m →
      t.haltsWithin m = true := by
  intro n
  induction n with
  | zero =>
    intro t m h _
    exact halts_empty (by simpa [Tokenizer.haltsWithin, List.isEmpty_iff] using h) m
  | succ n ih =>
    intro t m h hm
    cases m with
    | zero => omega
    | succ m =>
      cases hn : t.next with
      | none => simp [Tokenizer.haltsWithin, hn]
      | some p =>
        obtain ⟨r, t'⟩ := p
        simp only [Tokenizer.haltsWithin, hn] at h ⊢
        exact ih t' m h (by omega)

lemma halts_good :
    ∀ (n : Nat) (t : Tokenizer), t.Good →
      2 * t.corpus.length + t.state.rank ≤ n →
      t.haltsWithin t.bound = true := by
  intro n
  induction n with
  | zero =>
    intro t hg hm
    refine halts_empty ?_ _
    cases hcc : t.corpus with
    | nil => rfl
    | cons x xs =>
      rw [hcc] at hm
      simp only [List.length_cons] at hm
      omega
  | succ n ih =>
    intro t hg hm
    by_cases hc : t.corpus = []
    · exact halts_empty hc _
    · have hnext := next_some hc
      obtain ⟨st, c, o, a⟩ := t
      have hcl : 1 ≤ c.length := List.length_pos.mpr hc
      cases st with
      | Lit =>
        obtain ⟨hle, h0⟩ := hg
        simp only [State.rank] at hm
        have hge : 1 ≤ Tokenizer.bound ⟨.Lit, c, o, a⟩ := by
          simp only [Tokenizer.bound]
          by_cases ho : o = 0
          · rw [if_pos ho]; omega
          · rw [if_neg ho]; omega
        have hgood : Tokenizer.Good ⟨.Lit, c, o, a⟩ := ⟨hle, h0⟩
        cases hf : findSub dblOpen (c.drop o) with
        | some i =>
          simp only [Tokenizer.step, hf] at hnext
          have hoi : 1 ≤ o + i := by
            by_cases ho : o = 0
            · subst ho
              rw [List.drop_zero] at hf
              rcases h0 rfl with hcnil | hpf
              · exact absurd hcnil hc
              · have := findSub_ne0 hf hpf
                omega
            · omega
          have hfin := ih ⟨.Var, c.drop (o + i), 0, a + (o + i)⟩
            (good_step hgood hnext)
            (by
              simp only [State.rank, List.length_drop]
              omega)
          have hb' : Tokenizer.bound ⟨.Var, c.drop (o + i), 0, a + (o + i)⟩ =
              c.length - (o + i) := by
            simp [Tokenizer.bound]
          have hle' : Tokenizer.bound ⟨.Var, c.drop (o + i), 0, a + (o + i)⟩ ≤
              Tokenizer.bound ⟨.Lit, c, o, a⟩ - 1 := by
            rw [hb']
            simp only [Tokenizer.bound]
            by_cases ho : o = 0
            · rw [if_pos ho]; omega
            · rw [if_neg ho]; omega
          rw [show Tokenizer.bound ⟨.Lit, c, o, a⟩ =
            (Tokenizer.bound ⟨.Lit, c, o, a⟩ - 1) + 1 from by omega]
          simp only [Tokenizer.haltsWithin, hnext]
          exact haltsWithin_mono _ _ _ hfin hle'
        | none =>
          simp only [Tokenizer.step, hf] at hnext
          rw [show Tokenizer.bound ⟨.Lit, c, o, a⟩ =
            (Tokenizer.bound ⟨.Lit, c, o, a⟩ - 1) + 1 from by omega]
          simp only [Tokenizer.haltsWithin, hnext]
          exact halts_empty (List.drop_length c) _
      | Var =>
        have hpre : dblOpen.isPrefixOf c = true := hg
        obtain ⟨rest, hrest⟩ := dblOpen_ex.mp hpre
        have hclen : c.length = rest.length + 2 := by
          rw [hrest]; simp
        simp only [State.rank] at hm
        have hge : 1 ≤ Tokenizer.bound ⟨.Var, c, o, a⟩ := by
          simp only [Tokenizer.bound]; omega
        have hBv : Tokenizer.bound ⟨.Var, c, o, a⟩ = c.length := by
          simp [Tokenizer.bound]
        cases hb : findChar isBrace (c.drop 2) with
        | some i =>
          have hilt := findChar_lt hb
          simp only [List.length_drop] at hilt
          by_cases hcp2 : dblClose.isPrefixOf (c.drop (2 + i)) = true
          · obtain ⟨r2, hr2⟩ := dblClose_ex.mp hcp2
            have h4i : c.length - (2 + i) = r2.length + 2 := by
              have := congrArg List.length hr2
              simpa using this
            simp only [Tokenizer.step, hb, if_pos hcp2] at hnext
            by_cases hop : dblOpen.isPrefixOf (c.drop (4 + i)) = true
            · rw [if_pos hop] at hnext
              have hfin := ih ⟨.Var, c.drop (4 + i), 0, a + (4 + i)⟩
                (good_step hg hnext)
                (by
                  simp only [State.rank, List.length_drop]
                  omega)
              have hle' : Tokenizer.bound ⟨.Var, c.drop (4 + i), 0, a + (4 + i)⟩ ≤
                  Tokenizer.bound ⟨.Var, c, o, a⟩ - 1 := by
                rw [hBv]
                simp only [Tokenizer.bound, List.length_drop]
                omega
              rw [show Tokenizer.bound ⟨.Var, c, o, a⟩ =
                (Tokenizer.bound ⟨.Var, c, o, a⟩ - 1) + 1 from by omega]
              simp only [Tokenizer.haltsWithin, hnext]
              exact haltsWithin_mono _ _ _ hfin hle'
            · rw [if_neg hop] at hnext
              have hfin := ih ⟨.Lit, c.drop (4 + i), 0, a + (4 + i)⟩
                (good_step hg hnext)
                (by
                  simp only [State.rank, List.length_drop]
                  omega)
              have hle' : Tokenizer.bound ⟨.Lit, c.drop (4 + i), 0, a + (4 + i)⟩ ≤
                  Tokenizer.bound ⟨.Var, c, o, a⟩ - 1 := by
                rw [hBv]
                simp [Tokenizer.bound]
                omega
              rw [show Tokenizer.bound ⟨.Var, c, o, a⟩ =
                (Tokenizer.bound ⟨.Var, c, o, a⟩ - 1) + 1 from by omega]
              simp only [Tokenizer.haltsWithin, hnext]
              exact haltsWithin_mono _ _ _ hfin hle'
          · simp only [Tokenizer.step, hb, if_neg hcp2, List.drop_zero] at hnext
            have hfin := ih ⟨.Lit, c, 2 + i, a⟩
              (good_step hg hnext)
              (by
                simp only [State.rank]
                omega)
            have hle' : Tokenizer.bound ⟨.Lit, c, 2 + i, a⟩ ≤
                Tokenizer.bound ⟨.Var, c, o, a⟩ - 1 := by
              rw [hBv]
              simp only [Tokenizer.bound]
              rw [if_neg (by omega)]
              omega
            rw [show Tokenizer.bound ⟨.Var, c, o, a⟩ =
              (Tokenizer.bound ⟨.Var, c, o, a⟩ - 1) + 1 from by omega]
            simp only [Tokenizer.haltsWithin, hnext]
            exact haltsWithin_mono _ _ _ hfin hle'
        | none =>
          simp only [Tokenizer.step, hb, List.drop_zero] at hnext
          have hfin := ih ⟨.Lit, c, 2, a⟩
            (good_step hg hnext)
            (by
              simp only [State.rank]
              omega)
          have hle' : Tokenizer.bound ⟨.Lit, c, 2, a⟩ ≤
              Tokenizer.bound ⟨.Var, c, o, a⟩ - 1 := by
            rw [hBv]
            simp only [Tokenizer.bound]
            rw [if_neg (by omega)]
            omega
          rw [show Tokenizer.bound ⟨.Var, c, o, a⟩ =
            (Tokenizer.bound ⟨.Var, c, o, a⟩ - 1) + 1 from by omega]
          simp only [Tokenizer.haltsWithin, hnext]
          exact haltsWithin_mono _ _ _ hfin hle'

lemma halts_new (s : List Char) :
    (Tokenizer.new s).haltsWithin s.length = true := by
  have h := halts_good (2 * s.length + 1) (Tokenizer.new s) (good_new s)
    (by
      have hcorp : (Tokenizer.new s).corpus = s := by
        unfold Tokenizer.new
        split <;> rfl
      have hrank : (Tokenizer.new s).state.rank ≤ 1 := by
        cases (Tokenizer.new s).state <;> simp [State.rank]
      rw [hcorp]
      omega)
  have hb : (Tokenizer.new s).bound = s.length := by
    unfold Tokenizer.new
    split
    · simp [Tokenizer.bound]
    · simp [Tokenizer.bound]
  rwa [hb] at h

lemma run_stable :
    ∀ (n : Nat) (t : Tokenizer) (m : Nat), t.haltsWithin n = true → n ≤ m →
      Tokenizer.run m t = Tokenizer.run n t := by
  intro n
  induction n with
  | zero =>
    intro t m h _
    have hc : t.corpus = [] := by
      simpa [Tokenizer.haltsWithin, List.isEmpty_iff] using h
    cases m with
    | zero => rfl
    | succ m => simp [Tokenizer.run, next_none_iff.mpr hc]
  | succ n ih =>
    intro t m h hm
    cases m with
    | zero => omega
    | succ m =>
      cases hn : t.next with
      | none => simp [Tokenizer.run, hn]
      | some p =>
        obtain ⟨r, t'⟩ := p
        simp only [Tokenizer.haltsWithin, hn] at h
        simp only [Tokenizer.run, hn]
        rw [ih t' m h (by omega)]

lemma run_length_le :
    ∀ (n : Nat) (t : Tokenizer), (Tokenizer.run n t).length ≤ n := by
  intro n
  induction n with
  | zero => intro t; simp [Tokenizer.run]
  | succ n ih =>
    intro t
    cases hn : t.next with
    | none => simp [Tokenizer.run, hn]
    | some p =>
      obtain ⟨r, t'⟩ := p
      simp only [Tokenizer.run, hn, List.length_cons]
      have := ih t'
      omega

lemma joinConsumed_eq :
    ∀ (n : Nat) (t : Tokenizer), t.haltsWithin n = true →
      Tokenizer.joinConsumed n t = t.corpus := by
  intro n
  induction n with
  | zero =>
    intro t h
    have hc : t.corpus = [] := by
      simpa [Tokenizer.haltsWithin, List.isEmpty_iff] using h
    simp [Tokenizer.joinConsumed, hc]
  | succ n ih =>
    intro t h
    cases hn : t.next with
    | none =>
      have hc := next_none_iff.mp hn
      simp [Tokenizer.joinConsumed, hn, hc]
    | some p =>
      obtain ⟨r, t'⟩ := p
      simp only [Tokenizer.haltsWithin, hn] at h
      simp only [Tokenizer.joinConsumed, hn]
      rw [ih t' h]
      obtain ⟨-, -, hcp, -, -, -⟩ := next_parts hn
      rw [hcp]
      exact List.take_append_drop _ _

lemma run_nil_corpus :
    ∀ (k : Nat) (t : Tokenizer), t.corpus = [] → Tokenizer.run k t = [] := by
  intro k t h
  cases k with
  | zero => rfl
  | succ k => simp [Tokenizer.run, next_none_iff.mpr h]

lemma errList_nil : errList [] = [] := rfl

lemma errList_cons_ok (tok : Token) (tl : List TResult) :
    errList (.Ok tok :: tl) = errList tl := by
  simp [errList, List.filterMap_cons]

lemma errList_cons_err (e : Error) (tl : List TResult) :
    errList (.Err e :: tl) = e :: errList tl := by
  simp [errList, List.filterMap_cons]

lemma okTokens_nil : okTokens [] = [] := rfl

lemma okTokens_cons_ok (tok : Token) (tl : List TResult) :
    okTokens (.Ok tok :: tl) = tok :: okTokens tl := by
  simp [okTokens, List.filterMap_cons]

lemma okTokens_cons_err (e : Error) (tl : List TResult) :
    okTokens (.Err e :: tl) = okTokens tl := by
  simp [okTokens, List.filterMap_cons]

lemma foldl_err (l : List TResult) :
    ∀ (first : Error) (rest : List Error),
      l.foldl parseStep (.Err first rest) = .Err first (rest ++ errList l) := by
  induction l with
  | nil => intro f r; simp [errList_nil]
  | cons x tl ih =>
    intro f r
    cases x with
    | Ok tok =>
      rw [List.foldl_cons]
      show List.foldl parseStep (.Err f r) tl = _
      rw [ih, errList_cons_ok]
    | Err e =>
      rw [List.foldl_cons]
      show List.foldl parseStep (.Err f (r ++ [e])) tl = _
      rw [ih, errList_cons_err]
      simp

lemma foldl_ok (l : List TResult) :
    ∀ acc : List Token,
      l.foldl parseStep (.Ok acc) =
        match errList l with
        | [] => PResult.Ok (acc ++ okTokens l)
        | e :: es => PResult.Err e es := by
  induction l with
  | nil => intro acc; simp [errList_nil, okTokens_nil]
  | cons x tl ih =>
    intro acc
    cases x with
    | Ok tok =>
      rw [List.foldl_cons]
      show List.foldl parseStep (.Ok (acc ++ [tok])) tl = _
      rw [ih (acc ++ [tok]), errList_cons_ok, okTokens_cons_ok]
      cases h : errList tl <;> simp
    | Err e =>
      rw [List.foldl_cons]
      show List.foldl parseStep (.Err e []) tl = _
      rw [foldl_err, errList_cons_err]
      simp

/-- C1: for every template text, parse returns Ok with the complete ordered
token sequence exactly when every tokenizer step succeeds; otherwise it
returns Err with the first error and the ordered list of every subsequent
error, and every successful token emitted after the first error is
discarded; in particular on the scenario-F input it returns first error
ExpectedDoubleRightBraces 7 with trailing errors
[ExpectedDoubleRightBraces 23]. -/
theorem parse_C1 (s : List Char) :
    parse s = (match errList (tokenize s) with
      | [] => PResult.Ok (okTokens (tokenize s))
      | e :: es => PResult.Err e es)
    ∧ parse exF = PResult.Err (.ExpectedDoubleRightBraces 7)
        [.ExpectedDoubleRightBraces 23] := by
  constructor
  · unfold parse
    rw [foldl_ok (tokenize s) []]
    cases h : errList (tokenize s) <;> simp
  · decide

/-- C5: on the input of scenario E the tokenizer emits exactly the error
ExpectedDoubleRightBraces 7 (7 being the index of the second opening brace
pair's first character), then the literal token of the first seven
characters, then the placeholder token ipsum, and then ends. -/
theorem scenarioE_C5 :
    tokenize exE = [.Err (.ExpectedDoubleRightBraces 7),
      .Ok (.Lit ['{', '{', 'l', 'o', 'r', 'e', 'm']),
      .Ok (.Var ['i', 'p', 's', 'u', 'm'])]
    ∧ exE[7]? = some '{'
    ∧ Tokenizer.run 32 (Tokenizer.new exE) = tokenize exE := by
  refine ⟨by decide, by decide, by decide⟩

/-- C8: driving the tokenizer is finite: for every input the sequence of
results signals completion within input-length many steps, the emitted
sequence has at most input-length many entries, extra fuel changes nothing,
and the empty input terminates immediately with no steps. -/
theorem termination_C8 (s : List Char) :
    (Tokenizer.new s).haltsWithin s.length = true
    ∧ (tokenize s).length ≤ s.length
    ∧ (∀ m, s.length ≤ m → Tokenizer.run m (Tokenizer.new s) = tokenize s)
    ∧ tokenize ([] : List Char) = [] := by
  refine ⟨halts_new s, run_length_le _ _, ?_, rfl⟩
  intro m hm
  exact run_stable s.length (Tokenizer.new s) m (halts_new s) hm

/-- C8 witness: twelve fuel steps on the seven-character scenario-G input
already give the complete sequence. -/
theorem termination_C8_witness :
    Tokenizer.run 12 (Tokenizer.new exG) = tokenize exG :=
  (termination_C8 exG).2.2.1 12 (by decide)

/-- C9: evaluation of a literal token returns its text verbatim; evaluation
of a placeholder token returns the value the context maps its name to when
the name is defined, and the lookup-miss case is the panic marker none, not
a recoverable error value. -/
theorem eval_C9 :
    (∀ (ctx : List Char → Option (List Char)) (s : List Char),
      (Token.Lit s).eval ctx = some s)
    ∧ (∀ (ctx : List Char → Option (List Char)) (n v : List Char),
      ctx n = some v → (Token.Var n).eval ctx = some v)
    ∧ (∀ (ctx : List Char → Option (List Char)) (n : List Char),
      ctx n = none → (Token.Var n).eval ctx = none) :=
  ⟨fun _ _ => rfl, fun _ _ _ h => h, fun _ _ h => h⟩

/-- C9 witness: a concrete one-entry context evaluated at its own key. -/
theorem eval_C9_witness :
    (Token.Var ['a']).eval
      (fun m => if m = ['a'] then some ['v'] else none) = some ['v'] :=
  eval_C9.2.1 (fun m => if m = ['a'] then some ['v'] else none) ['a'] ['v']
    (by simp)

/-- C10: the tokenizer never panics: the invariant (in placeholder state the
remaining text begins with the opening delimiter, and the literal search
offset stays within the remaining text) holds at construction, is preserved
by every step, and makes every character index the pending step uses on the
remaining text in bounds (in the byte-accurate original these indices are
also char boundaries, as they point at or just past ASCII braces). -/
theorem safety_C10 (s : List Char) :
    Tokenizer.Inv s (Tokenizer.new s)
    ∧ (∀ (t t' : Tokenizer) (r : TResult), Tokenizer.Inv s t →
        t.next = some (r, t') → Tokenizer.Inv s t')
    ∧ (∀ t : Tokenizer, Tokenizer.Inv s t → t.stepInBounds) :=
  ⟨inv_new s, fun _ _ _ hi h => inv_step hi h, fun _ hi => good_bounds hi.2⟩

/-- C10 witness: the invariant and the in-bounds property at the freshly
constructed tokenizer of the scenario-E input. -/
theorem safety_C10_witness :
    Tokenizer.Inv exE (Tokenizer.new exE)
    ∧ (Tokenizer.new exE).stepInBounds :=
  ⟨(safety_C10 exE).1,
   (safety_C10 exE).2.2 (Tokenizer.new exE) (safety_C10 exE).1⟩

/-- C3 counterexample: the tokenizer produces the unexpected-end-of-input
error on the scenario-G input, and that error value carries no offset at
all — refuting the claim that every syntax error value carries the byte
offset where the problem was detected. -/
theorem errpos_C3_counterexample :
    tokenize exG = [.Err .UnexpectedEndOfFile, .Ok (.Lit exG)]
    ∧ Error.position .UnexpectedEndOfFile = none :=
  ⟨by decide, rfl⟩

/-- C3 amended: every malformed-closing-delimiter error produced by the
tokenizer carries the offset into the original text of the offending brace
character (a valid index of a brace in the input); the
unexpected-end-of-input error carries no offset. -/
theorem errpos_C3_amended :
    ∀ (s : List Char) (t : Tokenizer) (r : TResult) (t' : Tokenizer) (p : Nat),
      Tokenizer.Reach s t → t.next = some (r, t') →
      (r = .Err (.ExpectedDoubleRightBraces p) →
        Error.position (.ExpectedDoubleRightBraces p) = some p
        ∧ p < s.length ∧ ∃ c, s[p]? = some c ∧ isBrace c = true)
      ∧ (r = .Err .UnexpectedEndOfFile →
        Error.position .UnexpectedEndOfFile = none) := by
  intro s t r t' p hre h
  refine ⟨?_, fun _ => rfl⟩
  intro hr
  obtain ⟨hcor, hg⟩ := reach_inv hre
  obtain ⟨hrr, hst, hcp, hoff, hstart, hne⟩ := next_parts h
  rw [hr] at hrr
  obtain ⟨st, c, o, a⟩ := t
  cases st with
  | Lit =>
    cases hf : findSub dblOpen (c.drop o) with
    | some i =>
      simp only [Tokenizer.step, hf] at hrr
      exact absurd hrr (by simp)
    | none =>
      simp only [Tokenizer.step, hf] at hrr
      exact absurd hrr (by simp)
  | Var =>
    cases hb : findChar isBrace (c.drop 2) with
    | some i =>
      by_cases hcl : dblClose.isPrefixOf (c.drop (2 + i)) = true
      · simp only [Tokenizer.step, hb, if_pos hcl] at hrr
        exact absurd hrr (by simp)
      · simp only [Tokenizer.step, hb, if_neg hcl] at hrr
        simp only [TResult.Err.injEq, Error.ExpectedDoubleRightBraces.injEq]
          at hrr
        obtain ⟨ch, hch, hbr⟩ := findChar_get hb
        rw [List.getElem?_drop] at hch
        simp only at hcor
        rw [hcor, List.getElem?_drop] at hch
        have hidx : a + (2 + i) = p := by omega
        rw [hidx] at hch
        have hlt : p < s.length := by
          by_contra hnl
          rw [List.getElem?_eq_none (by omega)] at hch
          exact absurd hch (by simp)
        exact ⟨rfl, hlt, ch, hch, hbr⟩
    | none =>
      simp only [Tokenizer.step, hb] at hrr
      exact absurd hrr (by simp)

/-- C3 amended witness: on the concrete input with a malformed opener, the
error offset 3 is a valid index and points at a brace. -/
theorem errpos_C3_witness :
    Error.position (.ExpectedDoubleRightBraces 3) = some 3
    ∧ 3 < ex4.length ∧ ∃ c, ex4[3]? = some c ∧ isBrace c = true :=
  (errpos_C3_amended ex4 (Tokenizer.new ex4)
    (.Err (.ExpectedDoubleRightBraces 3)) ⟨.Lit, ex4, 3, 0⟩ 3
    Tokenizer.Reach.init (by decide)).1 rfl

/-- C4 counterexample: on the concrete input whose placeholder step finds the
offending brace at position 3, the step sets the resume offset to exactly 3
— the offending character's own position — not to a position strictly after
it (3 < 3 is false); indeed the recovered run then finds the opening
delimiter that starts at position 3 itself, which would be missed if the
scan started strictly after it. -/
theorem recovery_C4_counterexample :
    (Tokenizer.new ex4).next = some (.Err (.ExpectedDoubleRightBraces 3),
      ⟨.Lit, ex4, 3, 0⟩)
    ∧ ex4[3]? = some '{'
    ∧ tokenize ex4 = [.Err (.ExpectedDoubleRightBraces 3),
        .Ok (.Lit ['{', '{', 'a']), .Ok (.Var ['b'])]
    ∧ ¬ 3 < 3 :=
  ⟨by decide, by decide, by decide, by decide⟩

/-- C4 amended: when the placeholder-state step finds a brace character that
does not start a valid closing delimiter, it emits the error with the
offending character's absolute position, consumes zero characters (corpus
and start are unchanged), switches to literal state, and sets the resume
offset to the offending character's position relative to the remaining
text, so that the subsequent literal search starts scanning at the
offending character — strictly after the original opening delimiter. -/
theorem recovery_C4_amended :
    ∀ (t : Tokenizer) (i : Nat), t.state = .Var →
      dblOpen.isPrefixOf t.corpus = true →
      findChar isBrace (t.corpus.drop 2) = some i →
      dblClose.isPrefixOf (t.corpus.drop (2 + i)) = false →
      t.next = some (.Err (.ExpectedDoubleRightBraces (t.start + 2 + i)),
        ⟨.Lit, t.corpus, 2 + i, t.start⟩) := by
  intro t i hst hpre hb hcl
  have hc : ¬ t.corpus = [] := by
    intro hnil
    rw [hnil] at hpre
    simp [dblOpen, List.isPrefixOf] at hpre
  rw [next_some hc]
  obtain ⟨st, c, o, a⟩ := t
  cases st with
  | Lit => exact absurd hst (by simp)
  | Var =>
    dsimp only at hb hcl
    have hclP : ¬ dblClose.isPrefixOf (c.drop (2 + i)) = true := by
      intro hcontra
      rw [hcontra] at hcl
      exact absurd hcl (by simp)
    simp only [Tokenizer.step, hb, if_neg hclP, List.drop_zero]
    simp

/-- C4 amended witness: the concrete malformed-opener input instantiates the
amended recovery description. -/
theorem recovery_C4_witness :
    (Tokenizer.new ex4).next =
      some (.Err (.ExpectedDoubleRightBraces ((Tokenizer.new ex4).start + 2 + 1)),
        ⟨.Lit, (Tokenizer.new ex4).corpus, 2 + 1, (Tokenizer.new ex4).start⟩) :=
  recovery_C4_amended (Tokenizer.new ex4) 1 (by decide) (by decide) (by decide)
    (by decide)

/-- C6: when an opening delimiter is followed by no brace character at all
before the end of the text, the placeholder-state step emits the
unexpected-end-of-input error, consumes zero characters, and switches to
literal state, so that the next step emits the entire remaining text
(including the unresolved opener) as a single literal token; in particular
the scenario-G input yields exactly that error followed by the literal of
the whole input. -/
theorem ueof_C6 :
    (∀ t : Tokenizer, t.state = .Var → dblOpen.isPrefixOf t.corpus = true →
      findChar isBrace (t.corpus.drop 2) = none →
      t.next = some (.Err .UnexpectedEndOfFile, ⟨.Lit, t.corpus, 2, t.start⟩)
      ∧ (⟨.Lit, t.corpus, 2, t.start⟩ : Tokenizer).next =
          some (.Ok (.Lit t.corpus), ⟨.Lit, [], 0, t.start + t.corpus.length⟩))
    ∧ tokenize exG = [.Err .UnexpectedEndOfFile, .Ok (.Lit exG)] := by
  constructor
  · intro t hst hpre hb
    have hc : ¬ t.corpus = [] := by
      intro hnil
      rw [hnil] at hpre
      simp [dblOpen, List.isPrefixOf] at hpre
    constructor
    · rw [next_some hc]
      obtain ⟨st, c, o, a⟩ := t
      cases st with
      | Lit => exact absurd hst (by simp)
      | Var =>
        dsimp only at hb
        simp only [Tokenizer.step, hb, List.drop_zero]
        simp
    · have hfs : findSub dblOpen (t.corpus.drop 2) = none :=
        findSub_noBrace (findChar_none hb)
      rw [next_some
        (show ¬ (⟨.Lit, t.corpus, 2, t.start⟩ : Tokenizer).corpus = [] from hc)]
      simp only [Tokenizer.step, hfs]
      simp [List.drop_length]
  · decide

/-- C6 witness: the unexpected-end-of-input step at the freshly constructed
tokenizer of the scenario-G input. -/
theorem ueof_C6_witness :
    (Tokenizer.new exG).next =
      some (.Err .UnexpectedEndOfFile, ⟨.Lit, exG, 2, 0⟩) :=
  (ueof_C6.1 (Tokenizer.new exG) (by decide) (by decide) (by decide)).1

/-- C7: for a well-formed placeholder the emitted name is the text strictly
between the delimiters with surrounding whitespace stripped by trim; and
extraction is idempotent under added surrounding whitespace: a name without
leading or trailing whitespace and without braces, wrapped in delimiters
with any whitespace around it, tokenizes to exactly that name. -/
theorem trim_C7 :
    (∀ (t : Tokenizer) (i : Nat), t.state = .Var →
      findChar isBrace (t.corpus.drop 2) = some i →
      dblClose.isPrefixOf (t.corpus.drop (2 + i)) = true →
      ∃ t', t.next = some (.Ok (.Var (trim ((t.corpus.drop 2).take i))), t'))
    ∧ (∀ ws1 ws2 name : List Char,
      (∀ c ∈ ws1, isWs c = true) → (∀ c ∈ ws2, isWs c = true) →
      (∀ c ∈ name, isBrace c = false) →
      name.dropWhile isWs = name → name.reverse.dropWhile isWs = name.reverse →
      tokenize (dblOpen ++ (ws1 ++ name ++ ws2) ++ dblClose) =
        [.Ok (.Var name)]) := by
  constructor
  · intro t i hst hb hcl
    have hc : ¬ t.corpus = [] := by
      intro hnil
      rw [hnil] at hb
      simp [findChar, List.drop_nil] at hb
    rw [next_some hc]
    obtain ⟨st, c, o, a⟩ := t
    cases st with
    | Lit => exact absurd hst (by simp)
    | Var =>
      dsimp only at hb hcl
      simp only [Tokenizer.step, hb, if_pos hcl]
      exact ⟨_, rfl⟩
  · intro ws1 ws2 name h1 h2 h3 hdl hdr
    have hnb : ∀ c ∈ ws1 ++ name ++ ws2, isBrace c = false := by
      intro c hcmem
      rcases List.mem_append.mp hcmem with hca | hcw2
      · rcases List.mem_append.mp hca with hcw1 | hcn
        · exact isWs_not_brace (h1 c hcw1)
        · exact h3 c hcn
      · exact isWs_not_brace (h2 c hcw2)
    have hs : dblOpen ++ (ws1 ++ name ++ ws2) ++ dblClose =
        '{' :: '{' :: ((ws1 ++ name ++ ws2) ++ dblClose) := by
      simp [dblOpen]
    have hpre : dblOpen.isPrefixOf
        (dblOpen ++ (ws1 ++ name ++ ws2) ++ dblClose) = true :=
      dblOpen_ex.mpr ⟨_, hs⟩
    have hnew : Tokenizer.new (dblOpen ++ (ws1 ++ name ++ ws2) ++ dblClose) =
        ⟨.Var, dblOpen ++ (ws1 ++ name ++ ws2) ++ dblClose, 2, 0⟩ := by
      unfold Tokenizer.new
      rw [if_pos hpre]
    have hd2 : (dblOpen ++ (ws1 ++ name ++ ws2) ++ dblClose).drop 2 =
        (ws1 ++ name ++ ws2) ++ dblClose := by
      rw [hs]
      rfl
    have hfc : findChar isBrace ((ws1 ++ name ++ ws2) ++ dblClose) =
        some (ws1 ++ name ++ ws2).length :=
      findChar_app ['}'] hnb (by decide)
    have hdc : (dblOpen ++ (ws1 ++ name ++ ws2) ++ dblClose).drop
        (2 + (ws1 ++ name ++ ws2).length) = dblClose := by
      rw [hs, Nat.add_comm 2 ((ws1 ++ name ++ ws2).length)]
      exact List.drop_left _ _
    have hd4 : (dblOpen ++ (ws1 ++ name ++ ws2) ++ dblClose).drop
        (4 + (ws1 ++ name ++ ws2).length) = [] := by
      rw [hs, Nat.add_comm 4 ((ws1 ++ name ++ ws2).length)]
      show ((ws1 ++ name ++ ws2) ++ dblClose).drop
        ((ws1 ++ name ++ ws2).length + 2) = []
      rw [← List.drop_drop, List.drop_left]
      rfl
    have htk : (((ws1 ++ name ++ ws2) ++ dblClose)).take
        (ws1 ++ name ++ ws2).length = ws1 ++ name ++ ws2 :=
      List.take_left _ _
    have htr : trim (ws1 ++ name ++ ws2) = name :=
      trim_pad ws1 ws2 name h1 h2 hdl hdr
    have hclose : dblClose.isPrefixOf dblClose = true := by decide
    have hopemp : dblOpen.isPrefixOf ([] : List Char) = false := by decide
    have hrun0 : ∀ k a' : Nat,
        Tokenizer.run k (⟨.Lit, [], 0, a'⟩ : Tokenizer) = [] :=
      fun k a' => run_nil_corpus k _ rfl
    have hnext1 : (⟨.Var, dblOpen ++ (ws1 ++ name ++ ws2) ++ dblClose, 2, 0⟩ :
        Tokenizer).next =
        some (.Ok (.Var name),
          ⟨.Lit, [], 0, 0 + (4 + (ws1 ++ name ++ ws2).length)⟩) := by
      rw [next_some (by dsimp only; rw [hs]; simp)]
      dsimp only [Tokenizer.step]
      rw [hd2, hfc]
      dsimp only
      rw [hdc, if_pos hclose, hd4, if_neg (by decide), htk, htr]
    have hlen : (dblOpen ++ (ws1 ++ name ++ ws2) ++ dblClose).length =
        (ws1 ++ name ++ ws2).length + 3 + 1 := by
      simp only [List.length_append, dblOpen, dblClose, List.length_cons,
        List.length_nil]
      omega
    have hnone : (⟨.Lit, [], 0, 0 + (4 + (ws1 ++ name ++ ws2).length)⟩ :
        Tokenizer).next = none := next_none_iff.mpr rfl
    unfold tokenize
    rw [hlen, hnew]
    simp only [Tokenizer.run, hnext1, hnone]

/-- C7 witness: the placeholder with one space of padding on each side of the
name lorem tokenizes to exactly the unpadded name. -/
theorem trim_C7_witness :
    tokenize (dblOpen ++ ([' '] ++ ['l', 'o', 'r', 'e', 'm'] ++ [' ']) ++
      dblClose) = [.Ok (.Var ['l', 'o', 'r', 'e', 'm'])] :=
  trim_C7.2 [' '] [' '] ['l', 'o', 'r', 'e', 'm'] (by decide) (by decide)
    (by decide) (by decide) (by decide)

/-- C2: the consumed segments tile the input: concatenating the segments
consumed by the full run reproduces the whole input; and each step consumes
a contiguous segment starting where the previous consumption ended (the new
remaining text is the old one with the consumed length dropped and the
start offset advances by it), error steps consume zero characters, a
literal token's span is exactly its consumed segment, and a placeholder
token's consumed segment is the delimiters around the untrimmed name. -/
theorem tiling_C2 (s : List Char) :
    Tokenizer.joinConsumed s.length (Tokenizer.new s) = s
    ∧ (∀ (t : Tokenizer) (r : TResult) (t' : Tokenizer),
        (t.state = .Var → dblOpen.isPrefixOf t.corpus = true) →
        t.next = some (r, t') →
        t'.corpus = t.corpus.drop t.consumedLen
        ∧ t'.start = t.start + t.consumedLen
        ∧ (∀ e, r = .Err e → t.consumedLen = 0)
        ∧ (∀ x, r = .Ok (.Lit x) → x = t.corpus.take t.consumedLen)
        ∧ (∀ nm, r = .Ok (.Var nm) → ∃ raw,
            t.corpus.take t.consumedLen = dblOpen ++ raw ++ dblClose
            ∧ nm = trim raw)) := by
  constructor
  · rw [joinConsumed_eq s.length (Tokenizer.new s) (halts_new s)]
    unfold Tokenizer.new
    split <;> rfl
  · intro t r t' hvar h
    obtain ⟨hr, hst, hcp, hoff, hstart, hne⟩ := next_parts h
    refine ⟨hcp, hstart, ?_⟩
    subst hr
    obtain ⟨st, c, o, a⟩ := t
    cases st with
    | Lit =>
      cases hf : findSub dblOpen (c.drop o) with
      | some i =>
        simp only [Tokenizer.step, Tokenizer.consumedLen, hf]
        refine ⟨fun e he => absurd he (by simp), ?_,
          fun nm hnm => absurd hnm (by simp)⟩
        intro x hx
        simp only [TResult.Ok.injEq, Token.Lit.injEq] at hx
        exact hx.symm
      | none =>
        simp only [Tokenizer.step, Tokenizer.consumedLen, hf]
        refine ⟨fun e he => absurd he (by simp), ?_,
          fun nm hnm => absurd hnm (by simp)⟩
        intro x hx
        simp only [TResult.Ok.injEq, Token.Lit.injEq] at hx
        rw [← hx, List.take_length]
    | Var =>
      have hpre : dblOpen.isPrefixOf c = true := hvar rfl
      obtain ⟨rest, hrest⟩ := dblOpen_ex.mp hpre
      cases hb : findChar isBrace (c.drop 2) with
      | some i =>
        by_cases hcl : dblClose.isPrefixOf (c.drop (2 + i)) = true
        · simp only [Tokenizer.step, Tokenizer.consumedLen, hb, if_pos hcl]
          refine ⟨fun e he => absurd he (by simp),
            fun x hx => absurd hx (by simp), ?_⟩
          intro nm hnm
          simp only [TResult.Ok.injEq, Token.Var.injEq] at hnm
          refine ⟨(c.drop 2).take i, ?_, hnm.symm⟩
          subst hrest
          obtain ⟨r2, hr2⟩ := dblClose_ex.mp hcl
          rw [Nat.add_comm 2 i] at hr2
          have hdi : rest.drop i = '}' :: '}' :: r2 := hr2
          rw [Nat.add_comm 4 i]
          show '{' :: '{' :: rest.take (i + 2) = _
          rw [List.take_add, hdi]
          rfl
        · simp only [Tokenizer.step, Tokenizer.consumedLen, hb, if_neg hcl]
          exact ⟨fun e he => by trivial, fun x hx => absurd hx (by simp),
            fun nm hnm => absurd hnm (by simp)⟩
      | none =>
        simp only [Tokenizer.step, Tokenizer.consumedLen, hb]
        exact ⟨fun e he => by trivial, fun x hx => absurd hx (by simp),
          fun nm hnm => absurd hnm (by simp)⟩

/-- C2 witness: the first step on the scenario-E input is an error step: it
consumes zero characters, and the successor state keeps the whole corpus. -/
theorem tiling_C2_witness :
    (Tokenizer.new exE).consumedLen = 0
    ∧ (⟨.Lit, exE, 7, 0⟩ : Tokenizer).corpus =
        (Tokenizer.new exE).corpus.drop (Tokenizer.new exE).consumedLen := by
  have h := (tiling_C2 exE).2 (Tokenizer.new exE)
    (.Err (.ExpectedDoubleRightBraces 7)) ⟨.Lit, exE, 7, 0⟩
    (fun _ => by decide) (by decide)
  exact ⟨h.2.2.1 (.ExpectedDoubleRightBraces 7) rfl, h.1⟩

end Fillout
